import Mathlib

/-!
Verification of the in-place almost-sorted line sorter `lsort` (bidirectional
revision of `lsort.c`: the comparator `le`, the line locators `find`/`rfind`,
and the scan/relocate/flush loop of `main`).

The mapped file is a `List Nat` of byte values; pointers into the mapping are
indices.  The scan loop of `main` is embedded as a fuel-indexed recursion over
an explicit state; each `status` read of the C code is one "poll", and the
asynchronous cancellation signal is modelled by an optional poll index from
which on the flag reads as set.  Relocations and `msync` calls are recorded as
events so that theorems can speak about what a run performed.
-/

namespace Lsort

/-- The record delimiter byte, `'\n'`. -/
def nl : Nat := 10

/-- Reading byte `i` of the mapped buffer (out-of-range reads never happen in
reachable states; they default to 0). -/
def byteAt (d : List Nat) (i : Nat) : Nat := (d[i]?).getD 0

/-- Scan of at most `k` bytes from `pos` for a delimiter; embeds the `memchr`
loop inside `find`. -/
def findAux (d : List Nat) : Nat → Nat → Nat
  | 0, pos => pos
  | k + 1, pos => if byteAt d pos = nl then pos + 1 else findAux d k (pos + 1)

/-- `find(pos, end)` of `lsort.c`: the offset just past the next delimiter at
or after `pos`, or `stop` if there is none. -/
def find (d : List Nat) (pos stop : Nat) : Nat := findAux d (stop - pos) pos

/-- Backward scan for a delimiter in `[0, n)`; embeds `memrchr`.  Returns the
offset just past the last delimiter strictly below `n`, or 0. -/
def rlast (d : List Nat) : Nat → Nat
  | 0 => 0
  | m + 1 => if byteAt d m = nl then m + 1 else rlast d m

/-- `rfind(data, prev)` of `lsort.c`: the offset just past the delimiter
immediately preceding `prev` (the byte at `prev - 1` itself is excluded),
or 0 if `prev` lies within the first line. -/
def rfind (d : List Nat) (p : Nat) : Nat := rlast d (p - 1)

/-- The span `[a, b)` of the buffer, as a list of bytes. -/
def extract (d : List Nat) (a b : Nat) : List Nat := (d.drop a).take (b - a)

/-- Strip a single trailing delimiter, as the two leading `if`s of `le` do. -/
def stripNL (l : List Nat) : List Nat :=
  if l.getLast? = some nl then l.dropLast else l

/-- `memcmp` on the first `k` bytes of two spans. -/
def memcmpb : List Nat → List Nat → Nat → Ordering
  | _, _, 0 => .eq
  | [], _, _ + 1 => .eq
  | _ :: _, [], _ + 1 => .eq
  | a :: as, b :: bs, k + 1 =>
    if a < b then .lt else if b < a then .gt else memcmpb as bs k

/-- The number of bytes `le` hands to `memcmp`: `min(lhs_size, rhs_size)`,
capped by a nonzero `max_compare`. -/
def cmpSize (mc a b : Nat) : Nat :=
  if mc ≠ 0 ∧ mc < min a b then mc else min a b

/-- The body of `le` after delimiter stripping: compare `cmpSize` bytes; a
truncated-equal prefix counts as in order, otherwise lengths decide. -/
def leCore (mc : Nat) (l r : List Nat) : Bool :=
  match memcmpb l r (cmpSize mc l.length r.length) with
  | .lt => true
  | .gt => false
  | .eq =>
    if mc ≠ 0 ∧ cmpSize mc l.length r.length = mc then true
    else decide (l.length ≤ r.length)

/-- `le(lhs_begin, lhs_end, rhs_begin, rhs_end)` of `lsort.c`, acting on the
extracted spans; `mc` is the global `max_compare`. -/
def le (mc : Nat) (lhs rhs : List Nat) : Bool :=
  leCore mc (stripNL lhs) (stripNL rhs)

/-- Modelled from the spec: the §4.2 compare length
`min(len(lhs), len(rhs), compare_budget_or_unbounded)`.  This and the two
definitions below are written from the spec's words, used only to state the
refinement claim about `le`. -/
def specSize (mc a b : Nat) : Nat :=
  if mc = 0 then min a b else min (min a b) mc

/-- Modelled from the spec: the §4.2 resolution order over the stripped
operands (first differing byte decides; a budget-truncated equal prefix —
budget nonzero, equal to the bytes compared, and less than at least one
operand's true length — is "already in order"; otherwise the
shorter-or-equal operand is not greater). -/
def le_specCore (mc : Nat) (l r : List Nat) : Bool :=
  match memcmpb l r (specSize mc l.length r.length) with
  | .lt => true
  | .gt => false
  | .eq =>
    if mc ≠ 0 ∧ specSize mc l.length r.length = mc ∧ (mc < l.length ∨ mc < r.length)
    then true
    else decide (l.length ≤ r.length)

/-- Modelled from the spec (continued): strip, then apply the resolution
order. -/
def le_spec (mc : Nat) (lhs rhs : List Nat) : Bool :=
  le_specCore mc (stripNL lhs) (stripNL rhs)

/-- The scratch-buffer preparation common to both rotation paths: the copied
line, with a delimiter appended when its last byte is not one. -/
def synthesize (l : List Nat) : List Nat :=
  if l.getLast? = some nl then l else l ++ [nl]

/-- `memcpy`/`memmove` of `src` to offset `pos` of the buffer (the overlap-safe
semantics of `memmove`, reading `src` as captured before the write). -/
def writeAt (d : List Nat) (pos : Nat) (src : List Nat) : List Nat :=
  d.take pos ++ src ++ d.drop (pos + src.length)

/-- The move-back rotation of `main` on window `[p, n)` with the misplaced
span at `[c, n)`: copy `[c, n)` out (synthesizing a delimiter), shift
`[p, c - 1)` up by the copy's size, write the copy at `p`. -/
def moveBack (d : List Nat) (p c n : Nat) : List Nat :=
  writeAt
    (writeAt d (p + (synthesize (extract d c n)).length) (extract d p (c - 1)))
    p (synthesize (extract d c n))

/-- The move-forward rotation of `main`: copy `[p, c)` out, shift `[c, n)`
down to `p` (synthesizing a delimiter at its end), write back all but the last
byte of the copied run after it. -/
def moveForward (d : List Nat) (p c n : Nat) : List Nat :=
  writeAt
    (writeAt d p (synthesize (extract d c n)))
    (p + (synthesize (extract d c n)).length)
    ((extract d p c).take ((extract d p c).length - 1))

/-- The core-facing configuration: `max_compare`, `max_distance`, and the
poll index from which the cancellation flag reads as set (`none`: never). -/
structure Cfg where
  max_compare : Nat
  max_distance : Nat
  cancelAt : Option Nat
deriving Repr

/-- One `status` read: true when the signal has arrived by poll `k`. -/
def pollC (cfg : Cfg) (k : Nat) : Bool :=
  match cfg.cancelAt with
  | none => false
  | some t => t ≤ k

/-- Observable events of a run: a relocation (window `[prev, next)`, bytes
stored into the scratch buffer, scratch capacity after the `realloc`, poll
count when the rotation started, move-back?) and an `msync` of `[b, e)`. -/
inductive Ev where
  | reloc (prev next stored cap polls : Nat) (back : Bool)
  | flush (b e : Nat)
deriving Repr, DecidableEq

/-- The loop state of `main`: the mapped buffer, the `prev`/`current`
cursors, the 1-based line counter, the pending `msync` range, the scratch
capacity `bufsize`, the event trace, and the poll counter. -/
structure St where
  data : List Nat
  prev : Nat
  current : Nat
  line : Nat
  ms : Option (Nat × Nat)
  bufsize : Nat
  events : List Ev
  polls : Nat
deriving Repr, DecidableEq

/-- Result of a backward or forward insertion-point search: a fatal distance
error, or the final cursor with its line number and poll counter. -/
inductive SRes where
  | dist (polls : Nat)
  | done (pos pl polls : Nat)
deriving Repr, DecidableEq

/-- The backward search loop of `main` (`while status==0 && prev != data`):
poll, check the distance `next - prev` against a nonzero budget, then step
`prev` to `rfind(prev)` while the line before `prev` is still greater than
`[c, n)`.  `fuel` only bounds the recursion; calls pass `fuel = prev`, which
the strictly decreasing cursor never exhausts. -/
def searchBack (cfg : Cfg) (d : List Nat) (c n : Nat) :
    Nat → Nat → Nat → Nat → SRes
  | fuel, prev, pl, polls =>
    if pollC cfg polls then .done prev pl (polls + 1)
    else if prev = 0 then .done prev pl (polls + 1)
    else if cfg.max_distance ≠ 0 ∧ cfg.max_distance < n - prev then .dist (polls + 1)
    else if le cfg.max_compare (extract d (rfind d prev) prev) (extract d c n) then
      .done prev pl (polls + 1)
    else
      match fuel with
      | 0 => .done prev pl (polls + 1)
      | fuel + 1 => searchBack cfg d c n fuel (rfind d prev) (pl - 1) (polls + 1)

/-- The forward search loop of `main` (`while status==0 && next != end`):
poll, check the distance `next - prev`, then extend `next` to `find(next)`
while the anchor line `[p, c)` is still greater than the next line.  `fuel`
bounds the recursion; calls pass `fuel = stop - next`, which the strictly
increasing cursor never exhausts. -/
def searchFwd (cfg : Cfg) (d : List Nat) (p c stop : Nat) :
    Nat → Nat → Nat → Nat → SRes
  | fuel, nxt, ln, polls =>
    if pollC cfg polls then .done nxt ln (polls + 1)
    else if nxt = stop then .done nxt ln (polls + 1)
    else if cfg.max_distance ≠ 0 ∧ cfg.max_distance < nxt - p then .dist (polls + 1)
    else if le cfg.max_compare (extract d p c) (extract d nxt (find d nxt stop)) then
      .done nxt ln (polls + 1)
    else
      match fuel with
      | 0 => .done nxt ln (polls + 1)
      | fuel + 1 => searchFwd cfg d p c stop fuel (find d nxt stop) (ln + 1) (polls + 1)

/-- Increment the poll counter (one `status` read). -/
def bumpPoll (st : St) : St := { st with polls := st.polls + 1 }

/-- The `msync` event for the pending dirty range, if any. -/
def pendingFlush (st : St) : List Ev :=
  match st.ms with
  | none => []
  | some be => [.flush be.1 be.2]

/-- The `msync` of the pending range performed on every exit path of `main`
(success, abort, and `exit_with_error`). -/
def finalFlush (st : St) : St := { st with events := st.events ++ pendingFlush st }

/-- The in-order branch: flush the pending range, advance `prev`/`current`,
count the line. -/
def inOrder (st : St) (nxt : Nat) : St :=
  { st with prev := st.current, current := nxt, line := st.line + 1,
            ms := none, events := st.events ++ pendingFlush st }

/-- Merging the relocation window `[p2, n3)` into the pending `msync` range:
the union, unless a nonzero `max_distance` is exceeded, in which case the old
range is flushed and the new range starts at the window. -/
def relocMs (cfg : Cfg) (st : St) (p2 n3 : Nat) : (Nat × Nat) × List Ev :=
  let mb0 := match st.ms with | none => p2 | some be => min be.1 p2
  let me0 := match st.ms with | none => n3 | some be => max be.2 n3
  if cfg.max_distance ≠ 0 ∧ cfg.max_distance < me0 - mb0 then ((p2, n3), pendingFlush st)
  else ((mb0, me0), [])

/-- The move-back relocation step of `main`: grow the scratch buffer to
`min(prev_size, current_size + 1)`, rotate, and recompute the cursors with
`current = rfind(next)`, `prev = rfind(current)`. -/
def relocBack (cfg : Cfg) (st : St) (p2 n3 po3 : Nat) : St :=
  let mf := relocMs cfg st p2 n3
  let cap := max st.bufsize (min (st.current - p2) (n3 - st.current + 1))
  let stored := (synthesize (extract st.data st.current n3)).length
  let d2 := moveBack st.data p2 st.current n3
  let c2 := rfind d2 n3
  { data := d2, prev := rfind d2 c2, current := c2, line := st.line,
    ms := some mf.1, bufsize := cap,
    events := st.events ++ mf.2 ++ [.reloc p2 n3 stored cap po3 true],
    polls := po3 }

/-- The move-forward relocation step of `main`: rotate the other way and
recompute `current = find(prev)`. -/
def relocFwd (cfg : Cfg) (st : St) (p2 n3 po3 : Nat) : St :=
  let mf := relocMs cfg st p2 n3
  let cap := max st.bufsize (min (st.current - p2) (n3 - st.current + 1))
  let d2 := moveForward st.data p2 st.current n3
  { data := d2, prev := p2, current := find d2 p2 st.data.length, line := st.line,
    ms := some mf.1, bufsize := cap,
    events := st.events ++ mf.2 ++ [.reloc p2 n3 (st.current - p2) cap po3 false],
    polls := po3 }

/-- Outcome of a pass over one file: success, fatal distance error (carrying
the two numbers the error line prints: the 1-based line and the allowed
maximum), cancellation (`ABORTED`, nonzero exit status), or fuel exhaustion
of the embedding. -/
inductive Outcome where
  | ok (st : St)
  | distErr (line reported : Nat) (st : St)
  | aborted (st : St)
  | out (st : St)
deriving Repr

/-- The body of one scan-loop iteration of `main` after the poll and the
end-of-buffer test: locate `next`, test `le(prev, current)`; on disorder run
the backward search, then (only if it made no progress) the forward search,
and rotate by whichever direction moves fewer bytes.  Returns either a final
outcome (fatal distance error) or the state for the next iteration. -/
def loopGo (cfg : Cfg) (st1 : St) : Sum Outcome St :=
  let d := st1.data
  let stop := d.length
  let nxt := find d st1.current stop
  if le cfg.max_compare (extract d st1.prev st1.current) (extract d st1.current nxt) then
    .inr (inOrder st1 nxt)
  else
    match searchBack cfg d st1.current nxt st1.prev st1.prev (st1.line - 1) st1.polls with
    | .dist po2 =>
      .inl (.distErr st1.line cfg.max_distance (finalFlush { st1 with polls := po2 }))
    | .done p2 pl2 po2 =>
      match (if pl2 + 1 = st1.line
             then searchFwd cfg d p2 st1.current stop (stop - nxt) nxt st1.line po2
             else .done nxt st1.line po2) with
      | .dist po3 =>
        .inl (.distErr st1.line cfg.max_distance (finalFlush { st1 with polls := po3 }))
      | .done n3 _ po3 =>
        if n3 - st1.current ≤ st1.current - p2 then .inr (relocBack cfg st1 p2 n3 po3)
        else .inr (relocFwd cfg st1 p2 n3 po3)

/-- The scan loop of `main`, fuel-indexed: poll `status`, stop at `end`,
otherwise run one iteration body and continue. -/
def run (cfg : Cfg) : Nat → St → Outcome
  | 0, st => .out st
  | fuel + 1, st =>
    if pollC cfg st.polls then .aborted (finalFlush (bumpPoll st))
    else if (bumpPoll st).current = (bumpPoll st).data.length then
      .ok (finalFlush (bumpPoll st))
    else
      match loopGo cfg (bumpPoll st) with
      | .inl o => o
      | .inr st2 => run cfg fuel st2

/-- The state `main` sets up after `mmap`: `prev = data`,
`current = find(prev, end)`, `line = 2`. -/
def initSt (input : List Nat) : St :=
  { data := input, prev := 0, current := find input 0 input.length, line := 2,
    ms := none, bufsize := 0, events := [], polls := 0 }

/-- One pass of `lsort` over a file with contents `input`. -/
def runLsort (cfg : Cfg) (fuel : Nat) (input : List Nat) : Outcome :=
  run cfg fuel (initSt input)

/-- The buffer carried by an outcome. -/
def resData : Outcome → List Nat
  | .ok st => st.data
  | .distErr _ _ st => st.data
  | .aborted st => st.data
  | .out st => st.data

/-- The event trace carried by an outcome. -/
def resEvents : Outcome → List Ev
  | .ok st => st.events
  | .distErr _ _ st => st.events
  | .aborted st => st.events
  | .out st => st.events

/-- Did the pass complete successfully? -/
def isOk : Outcome → Bool
  | .ok _ => true
  | _ => false

/-- Did the pass observe cancellation and abort? -/
def isAborted : Outcome → Bool
  | .aborted _ => true
  | _ => false

/-- The (line, reported number) pair of a fatal distance error. -/
def errInfo : Outcome → Option (Nat × Nat)
  | .distErr l r _ => some (l, r)
  | _ => none

/-- The relocation events of a run. -/
def relocEvents (o : Outcome) : List Ev :=
  (resEvents o).filter fun ev => match ev with | .reloc .. => true | .flush .. => false

/-- The byte spans `next - prev` of the relocations a run performed. -/
def relocSpans (o : Outcome) : List Nat :=
  (resEvents o).filterMap fun ev =>
    match ev with | .reloc p n _ _ _ _ => some (n - p) | .flush .. => none

/-! ### Locator lemmas -/

theorem byteAt_append_left {l r : List Nat} {i : Nat} (h : i < l.length) :
    byteAt (l ++ r) i = byteAt l i := by
  simp [byteAt, List.getElem?_append, h]

theorem byteAt_append_right {l r : List Nat} {i : Nat} (h : l.length ≤ i) :
    byteAt (l ++ r) i = byteAt r (i - l.length) := by
  simp [byteAt, List.getElem?_append_right h]

theorem findAux_ge (d : List Nat) : ∀ k pos, pos ≤ findAux d k pos := by
  intro k
  induction k with
  | zero => intro pos; exact Nat.le_refl _
  | succ k ih =>
    intro pos
    by_cases h : byteAt d pos = nl
    · simp [findAux, h]
    · simp only [findAux, h, if_false]
      exact Nat.le_trans (Nat.le_succ pos) (ih (pos + 1))

theorem findAux_le (d : List Nat) : ∀ k pos, findAux d k pos ≤ pos + k := by
  intro k
  induction k with
  | zero => intro pos; exact Nat.le_refl _
  | succ k ih =>
    intro pos
    by_cases h : byteAt d pos = nl
    · simp only [findAux, h, if_true]
      omega
    · simp only [findAux, h, if_false]
      have := ih (pos + 1)
      omega

theorem findAux_pos (d : List Nat) (k pos : Nat) : pos + 1 ≤ findAux d (k + 1) pos := by
  by_cases h : byteAt d pos = nl
  · simp [findAux, h]
  · simp only [findAux, h, if_false]
    exact findAux_ge d k (pos + 1)

theorem findAux_boundary (d : List Nat) :
    ∀ k pos, findAux d k pos = pos + k ∨ byteAt d (findAux d k pos - 1) = nl := by
  intro k
  induction k with
  | zero => intro pos; left; rfl
  | succ k ih =>
    intro pos
    by_cases h : byteAt d pos = nl
    · right; simp only [findAux, h, if_true, Nat.add_sub_cancel]
    · simp only [findAux, h, if_false]
      rcases ih (pos + 1) with h1 | h1
      · left; omega
      · right; exact h1

theorem find_ge (d : List Nat) (pos stop : Nat) : pos ≤ find d pos stop :=
  findAux_ge d _ pos

theorem find_le {d : List Nat} {pos stop : Nat} (h : pos ≤ stop) : find d pos stop ≤ stop := by
  have := findAux_le d (stop - pos) pos
  unfold find
  omega

theorem find_lt {d : List Nat} {pos stop : Nat} (h : pos < stop) : pos < find d pos stop := by
  have hk : stop - pos = (stop - pos - 1) + 1 := by omega
  rw [find, hk]
  exact findAux_pos d _ pos

theorem find_boundary (d : List Nat) {pos stop : Nat} (h : pos ≤ stop) :
    find d pos stop = stop ∨ byteAt d (find d pos stop - 1) = nl := by
  rcases findAux_boundary d (stop - pos) pos with h1 | h1
  · left; unfold find; omega
  · right; exact h1

theorem rlast_le (d : List Nat) : ∀ n, rlast d n ≤ n := by
  intro n
  induction n with
  | zero => exact Nat.le_refl _
  | succ m ih =>
    by_cases h : byteAt d m = nl
    · simp [rlast, h]
    · simp only [rlast, h, if_false]
      omega

theorem rlast_boundary (d : List Nat) :
    ∀ n, rlast d n = 0 ∨ byteAt d (rlast d n - 1) = nl := by
  intro n
  induction n with
  | zero => left; rfl
  | succ m ih =>
    by_cases h : byteAt d m = nl
    · right; simp only [rlast, h, if_true, Nat.add_sub_cancel]
    · simp only [rlast, h, if_false]
      exact ih

theorem rlast_ge (d : List Nat) :
    ∀ n i, i < n → byteAt d i = nl → i + 1 ≤ rlast d n := by
  intro n
  induction n with
  | zero => intro i h; omega
  | succ m ih =>
    intro i hi hb
    by_cases h : byteAt d m = nl
    · simp only [rlast, h, if_true]; omega
    · simp only [rlast, h, if_false]
      have : i ≠ m := fun he => h (he ▸ hb)
      exact ih i (by omega) hb

theorem rfind_le (d : List Nat) (p : Nat) : rfind d p ≤ p :=
  Nat.le_trans (rlast_le d (p - 1)) (Nat.sub_le p 1)

theorem rfind_lt {d : List Nat} {p : Nat} (h : 0 < p) : rfind d p < p := by
  have := rlast_le d (p - 1)
  unfold rfind
  omega

theorem rfind_boundary (d : List Nat) (p : Nat) :
    rfind d p = 0 ∨ byteAt d (rfind d p - 1) = nl :=
  rlast_boundary d (p - 1)

theorem rfind_ge {d : List Nat} {p i : Nat} (h1 : i < p - 1) (h2 : byteAt d i = nl) :
    i + 1 ≤ rfind d p :=
  rlast_ge d (p - 1) i h1 h2

/-! ### Span lemmas -/

theorem length_extract {d : List Nat} {a b : Nat} (hab : a ≤ b) (hb : b ≤ d.length) :
    (extract d a b).length = b - a := by
  simp only [extract, List.length_take, List.length_drop]
  omega

theorem extract_append_extract {d : List Nat} {a b c : Nat} (h1 : a ≤ b) (h2 : b ≤ c) :
    extract d a b ++ extract d b c = extract d a c := by
  unfold extract
  rw [show c - a = (b - a) + (c - b) by omega, List.take_add, List.drop_drop,
    show a + (b - a) = b by omega]

theorem extract_singleton {d : List Nat} {a : Nat} (h : a < d.length) :
    extract d a (a + 1) = [byteAt d a] := by
  unfold extract
  rw [List.drop_eq_getElem_cons h, show a + 1 - a = 1 by omega]
  simp only [List.take_succ_cons, List.take_zero]
  simp [byteAt, List.getElem?_eq_getElem h]

theorem extract_concat {d : List Nat} {a b : Nat} (h1 : a < b) (h2 : b ≤ d.length) :
    extract d a b = extract d a (b - 1) ++ [byteAt d (b - 1)] := by
  have hs : extract d (b - 1) b = [byteAt d (b - 1)] := by
    have := extract_singleton (d := d) (a := b - 1) (by omega)
    rwa [show b - 1 + 1 = b by omega] at this
  rw [← hs, extract_append_extract (by omega) (by omega)]

theorem extract_getLast {d : List Nat} {a b : Nat} (h1 : a < b) (h2 : b ≤ d.length) :
    (extract d a b).getLast? = some (byteAt d (b - 1)) := by
  rw [extract_concat h1 h2, List.getLast?_concat]

theorem take_append_extract {d : List Nat} {a b : Nat} (h1 : a ≤ b) :
    d.take a ++ extract d a b = d.take b := by
  unfold extract
  rw [show b = a + (b - a) by omega, List.take_add]
  congr 2
  omega

/-! ### Comparator lemmas -/

theorem stripNL_of_ne {l : List Nat} (h : l.getLast? ≠ some nl) : stripNL l = l := by
  simp [stripNL, h]

theorem stripNL_of_last_nl {l : List Nat} (h : l.getLast? = some nl) :
    stripNL l = l.dropLast := by
  simp [stripNL, h]

theorem stripNL_concat_nl (l : List Nat) : stripNL (l ++ [nl]) = l := by
  simp [stripNL, List.getLast?_concat, List.dropLast_concat]

theorem cmpSize_eq_specSize (mc a b : Nat) : cmpSize mc a b = specSize mc a b := by
  unfold cmpSize specSize
  split_ifs <;> omega

theorem leCore_eq_le_specCore (mc : Nat) (L R : List Nat) :
    leCore mc L R = le_specCore mc L R := by
  unfold leCore le_specCore
  rw [cmpSize_eq_specSize]
  cases hm : memcmpb L R (specSize mc L.length R.length) with
  | lt => rfl
  | gt => rfl
  | eq =>
    by_cases h0 : mc = 0
    · simp [h0]
    · by_cases h1 : specSize mc L.length R.length = mc
      · by_cases h2 : mc < L.length ∨ mc < R.length
        · simp [h0, h1, h2]
        · have hmin : min (min L.length R.length) mc = mc := by
            rw [← h1]; unfold specSize; simp [h0]
          have hLR : L.length = mc ∧ R.length = mc := by omega
          simp [h0, h1, h2, hLR.1, hLR.2]
      · simp [h0, h1]

theorem le_eq_le_spec (mc : Nat) (lhs rhs : List Nat) :
    le mc lhs rhs = le_spec mc lhs rhs := by
  unfold le le_spec
  exact leCore_eq_le_specCore mc _ _

theorem le_true_of_strip_nil {mc : Nat} {l r : List Nat} (h : stripNL l = []) :
    le mc l r = true := by
  unfold le leCore cmpSize
  rw [h]
  simp [memcmpb]

/-! ### Rotation lemmas -/

theorem synthesize_getLast (l : List Nat) : (synthesize l).getLast? = some nl := by
  unfold synthesize
  split_ifs with h
  · exact h
  · exact List.getLast?_concat l

theorem synthesize_length {l : List Nat} :
    l.length ≤ (synthesize l).length ∧ (synthesize l).length ≤ l.length + 1 := by
  unfold synthesize
  split_ifs <;> simp

theorem byteAt_last {l : List Nat} {x : Nat} (h : l.getLast? = some x) :
    byteAt l (l.length - 1) = x := by
  rw [List.getLast?_eq_getElem?] at h
  simp [byteAt, h]

theorem writeAt_writeAt_back {d T R : List Nat} {p : Nat}
    (h : p + T.length + R.length ≤ d.length) :
    writeAt (writeAt d (p + T.length) R) p T
      = d.take p ++ T ++ R ++ d.drop (p + T.length + R.length) := by
  unfold writeAt
  have hA : (d.take (p + T.length)).length = p + T.length := by
    rw [List.length_take]; omega
  simp only [List.append_assoc]
  rw [List.take_append_eq_append_take, List.drop_append_eq_append_drop, hA,
    show p - (p + T.length) = 0 by omega,
    show p + T.length - (p + T.length) = 0 by omega,
    List.take_take, show min p (p + T.length) = p by omega,
    List.drop_eq_nil_of_le (Nat.le_of_eq hA)]
  simp

theorem writeAt_writeAt_fwd {d T R : List Nat} {p : Nat}
    (h : p + T.length + R.length ≤ d.length) :
    writeAt (writeAt d p T) (p + T.length) R
      = d.take p ++ T ++ R ++ d.drop (p + T.length + R.length) := by
  unfold writeAt
  have hA : (d.take p).length = p := by
    rw [List.length_take]; omega
  have e1 : List.take T.length (T ++ List.drop (p + T.length) d) = T :=
    List.take_left T _
  have e2 : List.drop (p + T.length + R.length) (List.take p d) = [] :=
    List.drop_eq_nil_of_le (by rw [hA]; omega)
  have e3 : List.drop (T.length + R.length) (T ++ List.drop (p + T.length) d)
      = List.drop (p + T.length + R.length) d := by
    rw [List.drop_append_eq_append_drop,
      List.drop_eq_nil_of_le (show T.length ≤ T.length + R.length by omega),
      show T.length + R.length - T.length = R.length by omega, List.drop_drop]
    simp
  simp only [List.append_assoc]
  rw [List.take_append_eq_append_take, List.drop_append_eq_append_drop, hA,
    show p + T.length - p = T.length by omega,
    show p + T.length + R.length - p = T.length + R.length by omega,
    List.take_take, show min (p + T.length) p = p by omega,
    e1, e2, e3]
  simp

theorem extract_take_pred {d : List Nat} {p c : Nat} (hpc : p < c) (hc : c ≤ d.length) :
    (extract d p c).take ((extract d p c).length - 1) = extract d p (c - 1) := by
  have hlen : (extract d p c).length = c - p := length_extract (Nat.le_of_lt hpc) hc
  rw [hlen]
  unfold extract
  rw [List.take_take, show min (c - p - 1) (c - p) = c - 1 - p by omega]

theorem moveBack_form {d : List Nat} {p c n : Nat}
    (hpc : p < c) (hcn : c < n) (hn : n ≤ d.length) :
    moveBack d p c n
      = d.take p ++ synthesize (extract d c n) ++ extract d p (c - 1) ++
          d.drop ((synthesize (extract d c n)).length + c - 1) := by
  have hlr : (extract d p (c - 1)).length = c - 1 - p :=
    length_extract (by omega) (by omega)
  have hle : (extract d c n).length = n - c := length_extract (by omega) hn
  have hlt := synthesize_length (l := extract d c n)
  unfold moveBack
  rw [writeAt_writeAt_back (by omega),
    show p + (synthesize (extract d c n)).length + (extract d p (c - 1)).length
      = (synthesize (extract d c n)).length + c - 1 by omega]

theorem moveForward_form {d : List Nat} {p c n : Nat}
    (hpc : p < c) (hcn : c < n) (hn : n ≤ d.length) :
    moveForward d p c n
      = d.take p ++ synthesize (extract d c n) ++ extract d p (c - 1) ++
          d.drop ((synthesize (extract d c n)).length + c - 1) := by
  have hlr : (extract d p (c - 1)).length = c - 1 - p :=
    length_extract (by omega) (by omega)
  have hle : (extract d c n).length = n - c := length_extract (by omega) hn
  have hlt := synthesize_length (l := extract d c n)
  unfold moveForward
  rw [extract_take_pred hpc (by omega), writeAt_writeAt_fwd (by omega),
    show p + (synthesize (extract d c n)).length + (extract d p (c - 1)).length
      = (synthesize (extract d c n)).length + c - 1 by omega]

theorem moveForward_eq_moveBack {d : List Nat} {p c n : Nat}
    (hpc : p < c) (hcn : c < n) (hn : n ≤ d.length) :
    moveForward d p c n = moveBack d p c n := by
  rw [moveForward_form hpc hcn hn, moveBack_form hpc hcn hn]

theorem extract_nonempty {d : List Nat} {a b : Nat} (h1 : a < b) (h2 : b ≤ d.length) :
    extract d a b ≠ [] := by
  intro hx
  have := length_extract (d := d) (Nat.le_of_lt h1) h2
  rw [hx] at this
  simp at this
  omega

theorem drop_pred {d : List Nat} {n : Nat} (h1 : n - 1 < d.length) (h2 : 1 ≤ n) :
    d.drop (n - 1) = byteAt d (n - 1) :: d.drop n := by
  rw [List.drop_eq_getElem_cons h1, show n - 1 + 1 = n by omega]
  congr 1
  simp [byteAt, List.getElem?_eq_getElem h1]

/-- The window content placed by `moveBack`: the (delimiter-completed) moved
span first, then the shifted run, arranged by whether the moved span already
ended in a delimiter. -/
theorem moveBack_eq_of_nl {d : List Nat} {p c n : Nat}
    (hpc : p < c) (hcn : c < n) (hn : n ≤ d.length) (hlast : byteAt d (n - 1) = nl) :
    moveBack d p c n
      = d.take p ++ (extract d c n ++ (extract d p (c - 1) ++ ([nl] ++ d.drop n))) := by
  have hget : (extract d c n).getLast? = some nl := by
    rw [extract_getLast hcn hn, hlast]
  have hle : (extract d c n).length = n - c := length_extract (by omega) hn
  rw [moveBack_form hpc hcn hn]
  rw [show synthesize (extract d c n) = extract d c n from by unfold synthesize; rw [if_pos hget]]
  rw [hle, show n - c + c - 1 = n - 1 by omega]
  have hdrop : d.drop (n - 1) = nl :: d.drop n := by
    rw [drop_pred (show n - 1 < d.length by omega) (by omega), hlast]
  rw [hdrop]
  simp [List.append_assoc]

/-- The window content placed by `moveBack` when the moved span lacked its
delimiter: the synthesized delimiter follows the moved span, and the shifted
run ends the buffer region without one. -/
theorem moveBack_eq_of_not_nl {d : List Nat} {p c n : Nat}
    (hpc : p < c) (hcn : c < n) (hn : n ≤ d.length) (hlast : byteAt d (n - 1) ≠ nl) :
    moveBack d p c n
      = d.take p ++ (extract d c n ++ ([nl] ++ (extract d p (c - 1) ++ d.drop n))) := by
  have hget : (extract d c n).getLast? = some (byteAt d (n - 1)) := extract_getLast hcn hn
  have hne : (extract d c n).getLast? ≠ some nl := by
    rw [hget]
    intro hx
    exact hlast (by injection hx)
  have hle : (extract d c n).length = n - c := length_extract (by omega) hn
  rw [moveBack_form hpc hcn hn]
  rw [show synthesize (extract d c n) = extract d c n ++ [nl] from by
    unfold synthesize; rw [if_neg hne]]
  rw [List.length_append, hle, show [nl].length = 1 from rfl,
    show n - c + 1 + c - 1 = n by omega]
  simp [List.append_assoc]

/-! ### Window decomposition: `moveBack` replaces `[p, n)` by a rearrangement -/

theorem take_of_sandwich {d M : List Nat} {p n : Nat}
    (hp : p ≤ n) (hn : n ≤ d.length) :
    (d.take p ++ M ++ d.drop n).take p = d.take p := by
  have hA : (d.take p).length = p := by rw [List.length_take]; omega
  simp only [List.append_assoc]
  rw [List.take_append_eq_append_take, hA, Nat.sub_self, List.take_take,
    show min p p = p by omega]
  simp

theorem drop_of_sandwich {d M : List Nat} {p n : Nat}
    (hp : p ≤ n) (hn : n ≤ d.length) (hM : M.length = n - p) :
    (d.take p ++ M ++ d.drop n).drop n = d.drop n := by
  have hA : (d.take p).length = p := by rw [List.length_take]; omega
  have e1 : List.drop n (List.take p d) = [] :=
    List.drop_eq_nil_of_le (by rw [hA]; exact hp)
  have e2 : List.drop (n - p) M = [] :=
    List.drop_eq_nil_of_le (by rw [hM])
  simp only [List.append_assoc]
  rw [List.drop_append_eq_append_drop, e1, hA, List.drop_append_eq_append_drop, e2, hM,
    Nat.sub_self]
  simp

theorem length_of_sandwich {d M : List Nat} {p n : Nat}
    (hp : p ≤ n) (hn : n ≤ d.length) (hM : M.length = n - p) :
    (d.take p ++ M ++ d.drop n).length = d.length := by
  simp only [List.length_append, List.length_take, List.length_drop, hM]
  omega

theorem extract_of_sandwich {d M : List Nat} {p n : Nat}
    (hp : p ≤ n) (hn : n ≤ d.length) (hM : M.length = n - p) :
    extract (d.take p ++ M ++ d.drop n) p n = M := by
  have hA : (d.take p).length = p := by rw [List.length_take]; omega
  unfold extract
  simp only [List.append_assoc]
  rw [List.drop_append_eq_append_drop, List.drop_eq_nil_of_le (Nat.le_of_eq hA), hA,
    Nat.sub_self, List.drop_zero, List.nil_append,
    List.take_append_eq_append_take, hM, Nat.sub_self, ← hM, List.take_length]
  simp

/-- `moveBack` splits the buffer as an unchanged prefix, a rearranged window,
and an unchanged suffix; the window is a permutation of the old window
whenever the shifted run `[p, c)` ends in a delimiter. -/
theorem moveBack_split {d : List Nat} {p c n : Nat}
    (hpc : p < c) (hcn : c < n) (hn : n ≤ d.length) (hc1 : byteAt d (c - 1) = nl) :
    ∃ M : List Nat, M.length = n - p ∧
      moveBack d p c n = d.take p ++ M ++ d.drop n ∧
      M.Perm (extract d p n) := by
  have hle : (extract d c n).length = n - c := length_extract (by omega) hn
  have hlr : (extract d p (c - 1)).length = c - 1 - p :=
    length_extract (by omega) (by omega)
  have hwin : extract d p n = extract d p (c - 1) ++ [nl] ++ extract d c n := by
    rw [← extract_append_extract (a := p) (b := c) (c := n) (by omega) (by omega),
      extract_concat hpc (by omega), hc1]
  by_cases hl : byteAt d (n - 1) = nl
  · refine ⟨extract d c n ++ (extract d p (c - 1) ++ [nl]), ?_, ?_, ?_⟩
    · simp only [List.length_append, hle, hlr]
      simp
      omega
    · rw [moveBack_eq_of_nl hpc hcn hn hl]
      simp [List.append_assoc]
    · rw [hwin]
      have hcomm : (extract d c n ++ (extract d p (c - 1) ++ [nl])).Perm
          ((extract d p (c - 1) ++ [nl]) ++ extract d c n) := List.perm_append_comm
      simpa [List.append_assoc] using hcomm
  · refine ⟨extract d c n ++ ([nl] ++ extract d p (c - 1)), ?_, ?_, ?_⟩
    · simp only [List.length_append, hle, hlr]
      simp
      omega
    · rw [moveBack_eq_of_not_nl hpc hcn hn hl]
      simp [List.append_assoc]
    · rw [hwin]
      have h1 : (extract d c n ++ ([nl] ++ extract d p (c - 1))).Perm
          (([nl] ++ extract d p (c - 1)) ++ extract d c n) :=
        List.perm_append_comm
      have h2 : (([nl] ++ extract d p (c - 1)) ++ extract d c n).Perm
          ((extract d p (c - 1) ++ [nl]) ++ extract d c n) :=
        List.Perm.append_right _ List.perm_append_comm
      simpa [List.append_assoc] using h1.trans h2

/-! ### Search-loop lemmas -/

theorem searchBack_done_le (cfg : Cfg) (d : List Nat) (c n : Nat) :
    ∀ fuel prev pl polls p2 pl2 po2,
      searchBack cfg d c n fuel prev pl polls = .done p2 pl2 po2 → p2 ≤ prev := by
  intro fuel
  induction fuel with
  | zero =>
    intro prev pl polls p2 pl2 po2 h
    unfold searchBack at h
    split_ifs at h <;> simp_all
  | succ fuel ih =>
    intro prev pl polls p2 pl2 po2 h
    unfold searchBack at h
    split_ifs at h with h1 h2 h3 h4
    · simp only [SRes.done.injEq] at h; omega
    · simp only [SRes.done.injEq] at h; omega
    · simp only [SRes.done.injEq] at h; omega
    · have hrec := ih (rfind d prev) (pl - 1) (polls + 1) p2 pl2 po2 h
      have hr : rfind d prev ≤ prev := rfind_le d prev
      omega

theorem searchBack_done_spec (cfg : Cfg) (d : List Nat) (c n : Nat)
    (hmd : cfg.max_distance ≠ 0) :
    ∀ fuel prev pl polls p2 pl2 po2,
      searchBack cfg d c n fuel prev pl polls = .done p2 pl2 po2 →
      p2 = prev ∨ ∃ q, q ≠ 0 ∧ n ≤ cfg.max_distance + q ∧ p2 = rfind d q ∧ p2 < q := by
  intro fuel
  induction fuel with
  | zero =>
    intro prev pl polls p2 pl2 po2 h
    unfold searchBack at h
    split_ifs at h <;> simp_all
  | succ fuel ih =>
    intro prev pl polls p2 pl2 po2 h
    unfold searchBack at h
    split_ifs at h with h1 h2 h3 h4
    · left; simp only [SRes.done.injEq] at h; omega
    · left; simp only [SRes.done.injEq] at h; omega
    · left; simp only [SRes.done.injEq] at h; omega
    · rcases ih (rfind d prev) (pl - 1) (polls + 1) p2 pl2 po2 h with he | ⟨q, hq⟩
      · right
        refine ⟨prev, h2, ?_, he, he ▸ rfind_lt (by omega)⟩
        rw [not_and_or] at h3
        rcases h3 with h3 | h3
        · exact absurd hmd h3
        · omega
      · exact Or.inr ⟨q, hq⟩

theorem searchBack_dist_spec (cfg : Cfg) (d : List Nat) (c n : Nat) :
    ∀ fuel prev pl polls po2,
      searchBack cfg d c n fuel prev pl polls = .dist po2 →
      ∃ q, q ≤ prev ∧ q ≠ 0 ∧ cfg.max_distance < n - q := by
  intro fuel
  induction fuel with
  | zero =>
    intro prev pl polls po2 h
    unfold searchBack at h
    split_ifs at h with h1 h2 h3 h4
    exact ⟨prev, Nat.le_refl _, h2, h3.2⟩
  | succ fuel ih =>
    intro prev pl polls po2 h
    unfold searchBack at h
    split_ifs at h with h1 h2 h3 h4
    · exact ⟨prev, Nat.le_refl _, h2, h3.2⟩
    · obtain ⟨q, hq1, hq2, hq3⟩ := ih (rfind d prev) (pl - 1) (polls + 1) po2 h
      exact ⟨q, Nat.le_trans hq1 (rfind_le d prev), hq2, hq3⟩

theorem searchFwd_done_ge (cfg : Cfg) (d : List Nat) (p c stop : Nat) :
    ∀ fuel nxt ln polls n2 ln2 po2, nxt ≤ stop →
      searchFwd cfg d p c stop fuel nxt ln polls = .done n2 ln2 po2 →
      nxt ≤ n2 ∧ n2 ≤ stop := by
  intro fuel
  induction fuel with
  | zero =>
    intro nxt ln polls n2 ln2 po2 hle h
    unfold searchFwd at h
    split_ifs at h <;> simp_all
  | succ fuel ih =>
    intro nxt ln polls n2 ln2 po2 hle h
    unfold searchFwd at h
    split_ifs at h with h1 h2 h3 h4
    · simp only [SRes.done.injEq] at h; omega
    · simp only [SRes.done.injEq] at h; omega
    · simp only [SRes.done.injEq] at h; omega
    · have hstep := ih (find d nxt stop) (ln + 1) (polls + 1) n2 ln2 po2 (find_le hle) h
      have := find_ge d nxt stop
      omega

theorem searchFwd_done_spec (cfg : Cfg) (d : List Nat) (p c stop : Nat)
    (hmd : cfg.max_distance ≠ 0) :
    ∀ fuel nxt ln polls n2 ln2 po2, nxt ≤ stop →
      searchFwd cfg d p c stop fuel nxt ln polls = .done n2 ln2 po2 →
      n2 = nxt ∨ ∃ q, nxt ≤ q ∧ q - p ≤ cfg.max_distance ∧ n2 = find d q stop ∧ q < n2 := by
  intro fuel
  induction fuel with
  | zero =>
    intro nxt ln polls n2 ln2 po2 hle h
    unfold searchFwd at h
    split_ifs at h <;> simp_all
  | succ fuel ih =>
    intro nxt ln polls n2 ln2 po2 hle h
    unfold searchFwd at h
    split_ifs at h with h1 h2 h3 h4
    · left; simp only [SRes.done.injEq] at h; omega
    · left; simp only [SRes.done.injEq] at h; omega
    · left; simp only [SRes.done.injEq] at h; omega
    · rcases ih (find d nxt stop) (ln + 1) (polls + 1) n2 ln2 po2 (find_le hle) h
        with he | ⟨q, hq1, hq2, hq3, hq4⟩
      · right
        refine ⟨nxt, Nat.le_refl _, ?_, he, ?_⟩
        · rw [not_and_or] at h3
          rcases h3 with h3 | h3
          · exact absurd hmd h3
          · omega
        · exact he ▸ find_lt (by omega)
      · exact Or.inr ⟨q, Nat.le_trans (find_ge d nxt stop) hq1, hq2, hq3, hq4⟩

theorem searchFwd_dist_spec (cfg : Cfg) (d : List Nat) (p c stop : Nat) :
    ∀ fuel nxt ln polls po2,
      searchFwd cfg d p c stop fuel nxt ln polls = .dist po2 →
      ∃ q, nxt ≤ q ∧ cfg.max_distance < q - p := by
  intro fuel
  induction fuel with
  | zero =>
    intro nxt ln polls po2 h
    unfold searchFwd at h
    split_ifs at h with h1 h2 h3 h4
    exact ⟨nxt, Nat.le_refl _, h3.2⟩
  | succ fuel ih =>
    intro nxt ln polls po2 h
    unfold searchFwd at h
    split_ifs at h with h1 h2 h3 h4
    · exact ⟨nxt, Nat.le_refl _, h3.2⟩
    · obtain ⟨q, hq1, hq2⟩ := ih (find d nxt stop) (ln + 1) (polls + 1) po2 h
      exact ⟨q, Nat.le_trans (find_ge d nxt stop) hq1, hq2⟩

/-! ### The reachable-state invariant and length preservation -/

/-- States the scan loop can actually be in: either at the end of the
buffer, or with `prev < current`, `current` inside the buffer, and `current`
a line start (the byte before it is a delimiter). -/
def GoodSt (st : St) : Prop :=
  st.current = st.data.length ∨
    (st.prev < st.current ∧ st.current < st.data.length ∧
      byteAt st.data (st.current - 1) = nl)

theorem span_ge_two_of_not_le {mc : Nat} {R d : List Nat} {p c : Nat}
    (hpc : p < c) (hc : c ≤ d.length) (hb : byteAt d (c - 1) = nl)
    (hf : le mc (extract d p c) R = false) : p + 2 ≤ c := by
  by_contra hcon
  have hc1 : c = p + 1 := by omega
  have hbp : byteAt d p = nl := by
    have hx := hb
    rw [hc1] at hx
    simpa using hx
  have hsingle : extract d p c = [nl] := by
    rw [hc1, extract_singleton (show p < d.length by omega), hbp]
  have hstrip : stripNL (extract d p c) = [] := by
    rw [hsingle]
    simp [stripNL]
  rw [le_true_of_strip_nil hstrip] at hf
  cases hf

theorem relocBack_good (cfg : Cfg) (st : St) {p2 n3 po3 : Nat}
    (h2 : p2 + 2 ≤ st.current) (h3 : st.current < n3) (h4 : n3 ≤ st.data.length)
    (hb : byteAt st.data (st.current - 1) = nl) :
    (relocBack cfg st p2 n3 po3).data.length = st.data.length ∧
      GoodSt (relocBack cfg st p2 n3 po3) := by
  obtain ⟨M, hM, hsplit, _⟩ := moveBack_split (show p2 < st.current by omega) h3 h4 hb
  have hlen : (moveBack st.data p2 st.current n3).length = st.data.length := by
    rw [hsplit]
    exact length_of_sandwich (by omega) h4 hM
  have hexl : (extract st.data st.current n3).length = n3 - st.current :=
    length_extract (by omega) h4
  have hsl := synthesize_length (l := extract st.data st.current n3)
  have hTlast : byteAt (synthesize (extract st.data st.current n3))
      ((synthesize (extract st.data st.current n3)).length - 1) = nl :=
    byteAt_last (synthesize_getLast _)
  have hidx : p2 + (synthesize (extract st.data st.current n3)).length - 1 < n3 - 1 := by
    omega
  have hbyte : byteAt (moveBack st.data p2 st.current n3)
      (p2 + (synthesize (extract st.data st.current n3)).length - 1) = nl := by
    have hform := moveBack_form (show p2 < st.current by omega) h3 h4
    have htk : (st.data.take p2).length = p2 := by
      rw [List.length_take]; omega
    rw [hform, List.append_assoc, List.append_assoc,
      byteAt_append_right (by rw [htk]; omega), htk,
      show p2 + (synthesize (extract st.data st.current n3)).length - 1 - p2
        = (synthesize (extract st.data st.current n3)).length - 1 by omega,
      byteAt_append_left (by omega)]
    exact hTlast
  have hge : p2 + (synthesize (extract st.data st.current n3)).length - 1 + 1
      ≤ rfind (moveBack st.data p2 st.current n3) n3 :=
    rlast_ge _ (n3 - 1) _ hidx hbyte
  have hlt : rfind (moveBack st.data p2 st.current n3) n3 ≤ n3 - 1 :=
    rlast_le _ (n3 - 1)
  have hbound : byteAt (moveBack st.data p2 st.current n3)
      (rfind (moveBack st.data p2 st.current n3) n3 - 1) = nl := by
    rcases rfind_boundary (moveBack st.data p2 st.current n3) n3 with hx | hx
    · omega
    · exact hx
  constructor
  · exact hlen
  · right
    refine ⟨?_, ?_, ?_⟩
    · exact rfind_lt (by omega)
    · show rfind (moveBack st.data p2 st.current n3) n3
        < (moveBack st.data p2 st.current n3).length
      rw [hlen]
      omega
    · exact hbound

theorem relocFwd_good (cfg : Cfg) (st : St) {p2 n3 po3 : Nat}
    (h2 : p2 + 2 ≤ st.current) (h3 : st.current < n3) (h4 : n3 ≤ st.data.length)
    (hb : byteAt st.data (st.current - 1) = nl) :
    (relocFwd cfg st p2 n3 po3).data.length = st.data.length ∧
      GoodSt (relocFwd cfg st p2 n3 po3) := by
  have heq : moveForward st.data p2 st.current n3 = moveBack st.data p2 st.current n3 :=
    moveForward_eq_moveBack (by omega) h3 h4
  obtain ⟨M, hM, hsplit, _⟩ := moveBack_split (show p2 < st.current by omega) h3 h4 hb
  have hlen : (moveForward st.data p2 st.current n3).length = st.data.length := by
    rw [heq, hsplit]
    exact length_of_sandwich (by omega) h4 hM
  have hcge : p2 < find (moveForward st.data p2 st.current n3) p2 st.data.length :=
    find_lt (by omega)
  have hcle : find (moveForward st.data p2 st.current n3) p2 st.data.length
      ≤ st.data.length := find_le (by omega)
  constructor
  · exact hlen
  · by_cases hce : find (moveForward st.data p2 st.current n3) p2 st.data.length
      = st.data.length
    · left
      show find (moveForward st.data p2 st.current n3) p2 st.data.length
        = (moveForward st.data p2 st.current n3).length
      rw [hlen, hce]
    · right
      refine ⟨hcge, ?_, ?_⟩
      · show find (moveForward st.data p2 st.current n3) p2 st.data.length
          < (moveForward st.data p2 st.current n3).length
        rw [hlen]
        omega
      · rcases find_boundary (moveForward st.data p2 st.current n3)
          (show p2 ≤ st.data.length by omega) with hx | hx
        · exact absurd hx hce
        · exact hx

theorem inOrder_good {st : St} (_hpc : st.prev < st.current)
    (hc : st.current < st.data.length) :
    (inOrder st (find st.data st.current st.data.length)).data = st.data ∧
      GoodSt (inOrder st (find st.data st.current st.data.length)) := by
  refine ⟨rfl, ?_⟩
  by_cases he : find st.data st.current st.data.length = st.data.length
  · left
    exact he
  · right
    refine ⟨find_lt hc, ?_, ?_⟩
    · show find st.data st.current st.data.length < st.data.length
      have := find_le (d := st.data) (Nat.le_of_lt hc)
      omega
    · rcases find_boundary st.data (Nat.le_of_lt hc) with hx | hx
      · exact absurd hx he
      · exact hx

theorem reloc_step_good (cfg : Cfg) (st1 : St) (p2 n3 po3 : Nat)
    (h2 : p2 + 2 ≤ st1.current) (h3 : st1.current < n3) (h4 : n3 ≤ st1.data.length)
    (hb : byteAt st1.data (st1.current - 1) = nl) :
    GoodSt (if n3 - st1.current ≤ st1.current - p2
            then relocBack cfg st1 p2 n3 po3 else relocFwd cfg st1 p2 n3 po3) ∧
    (if n3 - st1.current ≤ st1.current - p2
     then relocBack cfg st1 p2 n3 po3 else relocFwd cfg st1 p2 n3 po3).data.length
      = st1.data.length := by
  split_ifs with hdir
  · obtain ⟨hl, hgo⟩ := relocBack_good cfg st1 h2 h3 h4 hb
    exact ⟨hgo, hl⟩
  · obtain ⟨hl, hgo⟩ := relocFwd_good cfg st1 h2 h3 h4 hb
    exact ⟨hgo, hl⟩

theorem loopGo_spec (cfg : Cfg) (st1 : St) (hg : GoodSt st1)
    (hne : st1.current ≠ st1.data.length) :
    match loopGo cfg st1 with
    | .inl o => (resData o).length = st1.data.length
    | .inr st2 => GoodSt st2 ∧ st2.data.length = st1.data.length := by
  obtain ⟨hpc, hclen, hb⟩ :
      st1.prev < st1.current ∧ st1.current < st1.data.length ∧
        byteAt st1.data (st1.current - 1) = nl := by
    rcases hg with h | h
    · exact absurd h hne
    · exact h
  have hnxt_gt : st1.current < find st1.data st1.current st1.data.length := find_lt hclen
  have hnxt_le : find st1.data st1.current st1.data.length ≤ st1.data.length :=
    find_le (by omega)
  rw [loopGo]
  by_cases hcomp : le cfg.max_compare (extract st1.data st1.prev st1.current)
      (extract st1.data st1.current (find st1.data st1.current st1.data.length)) = true
  · rw [if_pos hcomp]
    obtain ⟨hdata, hgood⟩ := inOrder_good hpc hclen
    exact ⟨hgood, by rw [hdata]⟩
  · rw [if_neg hcomp]
    have hf : le cfg.max_compare (extract st1.data st1.prev st1.current)
        (extract st1.data st1.current (find st1.data st1.current st1.data.length))
        = false := by
      revert hcomp
      cases le cfg.max_compare (extract st1.data st1.prev st1.current)
        (extract st1.data st1.current (find st1.data st1.current st1.data.length)) <;>
        simp
    have hspan : st1.prev + 2 ≤ st1.current :=
      span_ge_two_of_not_le hpc (by omega) hb hf
    cases hsb : searchBack cfg st1.data st1.current
        (find st1.data st1.current st1.data.length) st1.prev st1.prev
        (st1.line - 1) st1.polls with
    | dist po2 => rfl
    | done p2 pl2 po2 =>
      dsimp only
      have hsp : p2 ≤ st1.prev :=
        searchBack_done_le cfg st1.data st1.current _ st1.prev st1.prev
          (st1.line - 1) st1.polls p2 pl2 po2 hsb
      by_cases hpl : pl2 + 1 = st1.line
      · rw [if_pos hpl]
        cases hsf : searchFwd cfg st1.data p2 st1.current st1.data.length
            (st1.data.length - find st1.data st1.current st1.data.length)
            (find st1.data st1.current st1.data.length) st1.line po2 with
        | dist po3 => rfl
        | done n3 ln3 po3 =>
          dsimp only
          obtain ⟨hge, hle2⟩ := searchFwd_done_ge cfg st1.data p2 st1.current
            st1.data.length _ _ st1.line po2 n3 ln3 po3 hnxt_le hsf
          rw [← apply_ite Sum.inr]
          obtain ⟨hgo, hl⟩ := reloc_step_good cfg st1 p2 n3 po3 (by omega) (by omega)
            (by omega) hb
          exact ⟨hgo, hl⟩
      · rw [if_neg hpl]
        dsimp only
        rw [← apply_ite Sum.inr]
        obtain ⟨hgo, hl⟩ := reloc_step_good cfg st1 p2
          (find st1.data st1.current st1.data.length) po2 (by omega) (by omega)
          (by omega) hb
        exact ⟨hgo, hl⟩

theorem run_length (cfg : Cfg) :
    ∀ fuel st, GoodSt st → (resData (run cfg fuel st)).length = st.data.length := by
  intro fuel
  induction fuel with
  | zero =>
    intro st _
    rfl
  | succ fuel ih =>
    intro st hg
    rw [run]
    by_cases h1 : pollC cfg st.polls
    · rw [if_pos h1]
      rfl
    · rw [if_neg h1]
      by_cases h2 : (bumpPoll st).current = (bumpPoll st).data.length
      · rw [if_pos h2]
        rfl
      · rw [if_neg h2]
        have hg1 : GoodSt (bumpPoll st) := hg
        have hspec := loopGo_spec cfg (bumpPoll st) hg1 h2
        cases hlg : loopGo cfg (bumpPoll st) with
        | inl o =>
          rw [hlg] at hspec
          exact hspec
        | inr st2 =>
          rw [hlg] at hspec
          obtain ⟨hgood2, hlen2⟩ := hspec
          rw [ih st2 hgood2, hlen2]
          rfl

theorem initSt_good (input : List Nat) : GoodSt (initSt input) := by
  by_cases h : find input 0 input.length = input.length
  · left
    exact h
  · right
    have h0 : 0 < input.length := by
      by_contra hz
      have hzl : input.length = 0 := by omega
      have : find input 0 input.length = input.length := by
        rw [hzl]
        rfl
      exact h this
    refine ⟨find_lt h0, ?_, ?_⟩
    · show find input 0 input.length < input.length
      have hfl : find input 0 input.length ≤ input.length := find_le (by omega)
      omega
    · rcases find_boundary input (show (0 : Nat) ≤ input.length by omega) with hx | hx
      · exact absurd hx h
      · exact hx

theorem runLsort_length (cfg : Cfg) (fuel : Nat) (input : List Nat) :
    (resData (runLsort cfg fuel input)).length = input.length :=
  run_length cfg fuel (initSt input) (initSt_good input)


/-! ### Claim theorems -/

/-- C1: the claim says that with `compare_budget = 0` every successful pass
leaves all adjacent lines (delimiter stripped) in byte-wise lexicographic
order, and that `"b\na\nc\n"` yields `"a\nb\nc\n"`.  The scenario holds, but
the ordering claim is violated by the code: on `"zzzz\nb\na\n"` the forward
search collects the multi-line block `"b\na\n"` and the move-back path
relocates it without ever re-checking the block's interior pair, so the pass
succeeds with output `"b\na\nzzzz\n"` whose first two lines `"b"`, `"a"` are
out of order. -/
theorem C1_ordering_bug :
    isOk (runLsort ⟨0, 0, none⟩ 20 [122, 122, 122, 122, 10, 98, 10, 97, 10]) = true ∧
    resData (runLsort ⟨0, 0, none⟩ 20 [122, 122, 122, 122, 10, 98, 10, 97, 10])
      = [98, 10, 97, 10, 122, 122, 122, 122, 10] ∧
    find [98, 10, 97, 10, 122, 122, 122, 122, 10] 0 9 = 2 ∧
    find [98, 10, 97, 10, 122, 122, 122, 122, 10] 2 9 = 4 ∧
    le 0 (extract [98, 10, 97, 10, 122, 122, 122, 122, 10] 0 2)
        (extract [98, 10, 97, 10, 122, 122, 122, 122, 10] 2 4) = false ∧
    isOk (runLsort ⟨0, 0, none⟩ 20 [98, 10, 97, 10, 99, 10]) = true ∧
    resData (runLsort ⟨0, 0, none⟩ 20 [98, 10, 97, 10, 99, 10])
      = [97, 10, 98, 10, 99, 10] := by
  decide

/-- C2: a relocation only rewrites bytes inside the window `[prev, next)`
(the prefix before `prev` and the suffix from `next` are unchanged), the
window's new content is a permutation of its old content, both rotation
directions produce the same buffer, and consequently every run of the
algorithm preserves the buffer's byte length exactly. -/
theorem C2_size_invariance :
    (∀ (d : List Nat) (p c n : Nat), p < c → c < n → n ≤ d.length →
        byteAt d (c - 1) = nl →
        (moveBack d p c n).length = d.length ∧
        (moveBack d p c n).take p = d.take p ∧
        (moveBack d p c n).drop n = d.drop n ∧
        (extract (moveBack d p c n) p n).Perm (extract d p n) ∧
        moveForward d p c n = moveBack d p c n) ∧
    (∀ (cfg : Cfg) (fuel : Nat) (input : List Nat),
        (resData (runLsort cfg fuel input)).length = input.length) := by
  constructor
  · intro d p c n hpc hcn hn hb
    obtain ⟨M, hM, hsplit, hperm⟩ := moveBack_split hpc hcn hn hb
    refine ⟨?_, ?_, ?_, ?_, moveForward_eq_moveBack hpc hcn hn⟩
    · rw [hsplit]
      exact length_of_sandwich (by omega) hn hM
    · rw [hsplit]
      exact take_of_sandwich (by omega) hn
    · rw [hsplit]
      exact drop_of_sandwich (by omega) hn hM
    · rw [hsplit, extract_of_sandwich (by omega) hn hM]
      exact hperm
  · intro cfg fuel input
    exact runLsort_length cfg fuel input

theorem C2_size_invariance_witness :
    ((moveBack [98, 10, 97] 0 2 3).length = ([98, 10, 97] : List Nat).length ∧
     (moveBack [98, 10, 97] 0 2 3).take 0 = ([98, 10, 97] : List Nat).take 0 ∧
     (moveBack [98, 10, 97] 0 2 3).drop 3 = ([98, 10, 97] : List Nat).drop 3 ∧
     (extract (moveBack [98, 10, 97] 0 2 3) 0 3).Perm (extract [98, 10, 97] 0 3) ∧
     moveForward [98, 10, 97] 0 2 3 = moveBack [98, 10, 97] 0 2 3) ∧
    (resData (runLsort ⟨0, 0, none⟩ 5 [97])).length = ([97] : List Nat).length :=
  ⟨C2_size_invariance.1 [98, 10, 97] 0 2 3 (by decide) (by decide) (by decide) (by decide),
   C2_size_invariance.2 ⟨0, 0, none⟩ 5 [97]⟩

/-- C3: the comparator `le` implements the §4.2 reference order exactly
(refinement against `le_spec`, written from the spec's words), and for
operands that do not already end in a delimiter, appending a single trailing
delimiter to either or both operands never changes the result. -/
theorem C3_comparator :
    (∀ (mc : Nat) (lhs rhs : List Nat), le mc lhs rhs = le_spec mc lhs rhs) ∧
    (∀ (mc : Nat) (x y : List Nat), x.getLast? ≠ some nl → y.getLast? ≠ some nl →
        le mc (x ++ [nl]) y = le mc x y ∧
        le mc x (y ++ [nl]) = le mc x y ∧
        le mc (x ++ [nl]) (y ++ [nl]) = le mc x y) := by
  constructor
  · exact le_eq_le_spec
  · intro mc x y hx hy
    unfold le
    rw [stripNL_concat_nl, stripNL_concat_nl, stripNL_of_ne hx, stripNL_of_ne hy]
    exact ⟨rfl, rfl, rfl⟩

theorem C3_comparator_witness :
    (le 1 [98] [97] = le_spec 1 [98] [97]) ∧
    (le 0 ([98] ++ [nl]) [97] = le 0 [98] [97] ∧
     le 0 [98] ([97] ++ [nl]) = le 0 [98] [97] ∧
     le 0 ([98] ++ [nl]) ([97] ++ [nl]) = le 0 [98] [97]) :=
  ⟨C3_comparator.1 1 [98] [97],
   C3_comparator.2 0 [98] [97] (by decide) (by decide)⟩

/-- C4 counterexample: with `distance_budget = 1` the input `"b\na"` is
relocated over a span of 3 bytes and no `DistanceExceeded` is reported — the
claim that every performed relocation touches at most `distance_budget`
bytes, and that exceeding spans are always reported, is false. -/
theorem C4_counterexample :
    isOk (runLsort ⟨0, 1, none⟩ 10 [98, 10, 97]) = true ∧
    relocSpans (runLsort ⟨0, 1, none⟩ 10 [98, 10, 97]) = [3] ∧
    errInfo (runLsort ⟨0, 1, none⟩ 10 [98, 10, 97]) = none ∧
    1 < 3 := by
  decide

/-- C4 amended: with a nonzero `distance_budget` the span `next - prev` is
checked only at the top of each backward/forward search iteration.  Every
search step is guarded: a backward result other than the starting `prev` was
reached by a step from a position `q` whose span `n - q` was within budget
(so the final window exceeds the budget by at most the final stepped line),
and symmetrically for the forward search; a `DistanceExceeded` result arises
exactly from a reached position whose span exceeds the budget.  The span of
the relocation eventually performed is not itself re-checked. -/
theorem C4_amended :
    ∀ (cfg : Cfg) (d : List Nat) (c n stop fuel prev pl polls nxt : Nat),
      cfg.max_distance ≠ 0 → nxt ≤ stop →
      (∀ p2 pl2 po2, searchBack cfg d c n fuel prev pl polls = SRes.done p2 pl2 po2 →
        p2 = prev ∨ ∃ q, q ≠ 0 ∧ n ≤ cfg.max_distance + q ∧ p2 = rfind d q ∧ p2 < q) ∧
      (∀ po2, searchBack cfg d c n fuel prev pl polls = SRes.dist po2 →
        ∃ q, q ≤ prev ∧ q ≠ 0 ∧ cfg.max_distance < n - q) ∧
      (∀ n2 ln2 po2, searchFwd cfg d prev c stop fuel nxt pl polls = SRes.done n2 ln2 po2 →
        n2 = nxt ∨ ∃ q, nxt ≤ q ∧ q - prev ≤ cfg.max_distance ∧
          n2 = find d q stop ∧ q < n2) ∧
      (∀ po2, searchFwd cfg d prev c stop fuel nxt pl polls = SRes.dist po2 →
        ∃ q, nxt ≤ q ∧ cfg.max_distance < q - prev) := by
  intro cfg d c n stop fuel prev pl polls nxt hmd hns
  refine ⟨?_, ?_, ?_, ?_⟩
  · intro p2 pl2 po2 h
    exact searchBack_done_spec cfg d c n hmd fuel prev pl polls p2 pl2 po2 h
  · intro po2 h
    exact searchBack_dist_spec cfg d c n fuel prev pl polls po2 h
  · intro n2 ln2 po2 h
    exact searchFwd_done_spec cfg d prev c stop hmd fuel nxt pl polls n2 ln2 po2 hns h
  · intro po2 h
    exact searchFwd_dist_spec cfg d prev c stop fuel nxt pl polls po2 h

theorem C4_amended_witness :
    (0 = 0 ∨ ∃ q, q ≠ 0 ∧ 4 ≤ (Cfg.mk 0 1 none).max_distance + q ∧
      0 = rfind [51, 10, 49, 10, 50, 10] q ∧ 0 < q) ∧
    (∃ q, 4 ≤ q ∧ (Cfg.mk 0 1 none).max_distance < q - 0) := by
  have h := C4_amended ⟨0, 1, none⟩ [51, 10, 49, 10, 50, 10] 2 4 6 2 0 1 1 4
    (by decide) (by decide)
  exact ⟨h.1 0 1 2 (by decide), h.2.2.2 2 (by decide)⟩

/-- C5 counterexample: for `"3\n1\n2\n"` with `distance_budget = 1` the run
fails at line 2 but the error reports the pair (line, allowed maximum)
`(2, 1)`; it does not report the required span 4 nor the overflow amount 3,
so "the reported error identifies ... the overflow distance" is false. -/
theorem C5_counterexample :
    errInfo (runLsort ⟨0, 1, none⟩ 10 [51, 10, 49, 10, 50, 10]) = some (2, 1) ∧
    (2, 1) ≠ ((2, 4) : Nat × Nat) ∧ (2, 1) ≠ ((2, 3) : Nat × Nat) := by
  decide

/-- C5 amended: when a search-loop distance check fails, the run terminates
fatally reporting the 1-based line number of the offending line and the
configured allowed maximum (not the overflow distance).  For `"3\n1\n2\n"`
this happens for budgets 1..3 (below the line-1..line-2 span 4), at line 2,
with no relocation performed and the buffer unchanged; budgets 4 and 5,
although smaller than the span 6 eventually moved, produce no error at all
and the file is sorted. -/
theorem C5_amended :
    ∀ md : Nat, 0 < md → md < 4 →
      errInfo (runLsort ⟨0, md, none⟩ 10 [51, 10, 49, 10, 50, 10]) = some (2, md) ∧
      resData (runLsort ⟨0, md, none⟩ 10 [51, 10, 49, 10, 50, 10])
        = [51, 10, 49, 10, 50, 10] ∧
      relocEvents (runLsort ⟨0, md, none⟩ 10 [51, 10, 49, 10, 50, 10]) = [] ∧
      isOk (runLsort ⟨0, 4, none⟩ 10 [51, 10, 49, 10, 50, 10]) = true ∧
      resData (runLsort ⟨0, 4, none⟩ 10 [51, 10, 49, 10, 50, 10])
        = [49, 10, 50, 10, 51, 10] := by
  intro md h1 h2
  interval_cases md <;> decide

theorem C5_amended_witness :
    errInfo (runLsort ⟨0, 2, none⟩ 10 [51, 10, 49, 10, 50, 10]) = some (2, 2) ∧
    resData (runLsort ⟨0, 2, none⟩ 10 [51, 10, 49, 10, 50, 10])
      = [51, 10, 49, 10, 50, 10] ∧
    relocEvents (runLsort ⟨0, 2, none⟩ 10 [51, 10, 49, 10, 50, 10]) = [] ∧
    isOk (runLsort ⟨0, 4, none⟩ 10 [51, 10, 49, 10, 50, 10]) = true ∧
    resData (runLsort ⟨0, 4, none⟩ 10 [51, 10, 49, 10, 50, 10])
      = [49, 10, 50, 10, 51, 10] :=
  C5_amended 2 (by decide) (by decide)

/-- C6: when the window reaches the end of a buffer whose final byte is not a
delimiter, the rotation places the moved span followed by exactly one
synthesized delimiter, and the shifted run — which previously ended in the
delimiter removed by `dropLast` — becomes the new delimiter-less tail; the
byte length is unchanged; both rotation directions agree.  Concretely,
`"b\na"` becomes `"a\nb"`. -/
theorem C6_delimiter_synthesis :
    (∀ (d : List Nat) (p c : Nat), p < c → c < d.length →
        byteAt d (c - 1) = nl → byteAt d (d.length - 1) ≠ nl →
        moveBack d p c d.length
          = d.take p ++ (extract d c d.length ++ ([nl] ++
              ((extract d p c).dropLast ++ d.drop d.length))) ∧
        moveForward d p c d.length = moveBack d p c d.length ∧
        (moveBack d p c d.length).length = d.length ∧
        extract d p c = (extract d p c).dropLast ++ [nl]) ∧
    isOk (runLsort ⟨0, 0, none⟩ 10 [98, 10, 97]) = true ∧
    resData (runLsort ⟨0, 0, none⟩ 10 [98, 10, 97]) = [97, 10, 98] := by
  refine ⟨?_, by decide, by decide⟩
  intro d p c hpc hcn hb hlast
  have hconc : extract d p c = extract d p (c - 1) ++ [byteAt d (c - 1)] :=
    extract_concat hpc (by omega)
  have hdl : (extract d p c).dropLast = extract d p (c - 1) := by
    rw [hconc]
    exact List.dropLast_concat
  obtain ⟨M, hM, hsplit, _⟩ := moveBack_split hpc hcn (Nat.le_refl _) hb
  refine ⟨?_, moveForward_eq_moveBack hpc hcn (Nat.le_refl _), ?_, ?_⟩
  · rw [moveBack_eq_of_not_nl hpc hcn (Nat.le_refl _) hlast, hdl]
  · rw [hsplit]
    exact length_of_sandwich (by omega) (Nat.le_refl _) hM
  · rw [hconc, hb, List.dropLast_concat]

theorem C6_delimiter_synthesis_witness :
    (moveBack [98, 10, 97] 0 2 3
      = ([98, 10, 97] : List Nat).take 0 ++ (extract [98, 10, 97] 2 3 ++ ([nl] ++
          ((extract [98, 10, 97] 0 2).dropLast ++ ([98, 10, 97] : List Nat).drop 3))) ∧
     moveForward [98, 10, 97] 0 2 3 = moveBack [98, 10, 97] 0 2 3 ∧
     (moveBack [98, 10, 97] 0 2 3).length = ([98, 10, 97] : List Nat).length ∧
     extract [98, 10, 97] 0 2 = (extract [98, 10, 97] 0 2).dropLast ++ [nl]) ∧
    isOk (runLsort ⟨0, 0, none⟩ 10 [98, 10, 97]) = true ∧
    resData (runLsort ⟨0, 0, none⟩ 10 [98, 10, 97]) = [97, 10, 98] :=
  ⟨C6_delimiter_synthesis.1 [98, 10, 97] 0 2 (by decide) (by decide) (by decide)
    (by decide),
   C6_delimiter_synthesis.2.1, C6_delimiter_synthesis.2.2⟩

/-- C7: the claim says that with `compare_budget = k > 0` any two adjacent
output lines either satisfy the full (unbudgeted) ordering or agree on their
first `k` bytes.  The code violates it: with `k = 1`, `"zzzz\nb\na\n"`
completes successfully as `"b\na\nzzzz\n"`, whose adjacent lines `"b"`,
`"a"` neither satisfy the full order nor agree on their first byte (the
multi-line block moved by the move-back path is never re-checked inside). -/
theorem C7_truncation_bug :
    isOk (runLsort ⟨1, 0, none⟩ 20 [122, 122, 122, 122, 10, 98, 10, 97, 10]) = true ∧
    resData (runLsort ⟨1, 0, none⟩ 20 [122, 122, 122, 122, 10, 98, 10, 97, 10])
      = [98, 10, 97, 10, 122, 122, 122, 122, 10] ∧
    find [98, 10, 97, 10, 122, 122, 122, 122, 10] 0 9 = 2 ∧
    find [98, 10, 97, 10, 122, 122, 122, 122, 10] 2 9 = 4 ∧
    le 0 (extract [98, 10, 97, 10, 122, 122, 122, 122, 10] 0 2)
        (extract [98, 10, 97, 10, 122, 122, 122, 122, 10] 2 4) = false ∧
    (stripNL (extract [98, 10, 97, 10, 122, 122, 122, 122, 10] 0 2)).take 1
      ≠ (stripNL (extract [98, 10, 97, 10, 122, 122, 122, 122, 10] 2 4)).take 1 := by
  decide

/-- C8: the claim says a second pass over the output of a successful pass
performs zero relocations and changes nothing.  The code violates it: the
first pass over `"zzzz\nb\na\n"` succeeds with output `"b\na\nzzzz\n"`,
and the second pass over that output performs a relocation and produces the
different buffer `"a\nb\nzzzz\n"`. -/
theorem C8_idempotence_bug :
    isOk (runLsort ⟨0, 0, none⟩ 20 [122, 122, 122, 122, 10, 98, 10, 97, 10]) = true ∧
    resData (runLsort ⟨0, 0, none⟩ 20 [122, 122, 122, 122, 10, 98, 10, 97, 10])
      = [98, 10, 97, 10, 122, 122, 122, 122, 10] ∧
    relocEvents (runLsort ⟨0, 0, none⟩ 20 [98, 10, 97, 10, 122, 122, 122, 122, 10])
      = [Ev.reloc 0 4 2 2 3 true] ∧
    resData (runLsort ⟨0, 0, none⟩ 20 [98, 10, 97, 10, 122, 122, 122, 122, 10])
      = [97, 10, 98, 10, 122, 122, 122, 122, 10] ∧
    ([97, 10, 98, 10, 122, 122, 122, 122, 10] : List Nat)
      ≠ [98, 10, 97, 10, 122, 122, 122, 122, 10] := by
  decide

/-- C9 counterexample: on `"2\n3\n1\n"` with the cancellation flag set from
poll index 2 on, the polls inside the insertion-point searches (indices 2
and 3) observe the flag, yet a rotation still begins afterwards (the
relocation event records poll count 4): "never begins a new rotation after
the next poll point" is false.  The run then aborts, flushing the pending
range. -/
theorem C9_counterexample :
    isAborted (runLsort ⟨0, 0, some 2⟩ 10 [50, 10, 51, 10, 49, 10]) = true ∧
    resEvents (runLsort ⟨0, 0, some 2⟩ 10 [50, 10, 51, 10, 49, 10])
      = [Ev.reloc 2 6 2 2 4 true, Ev.flush 2 6] ∧
    resData (runLsort ⟨0, 0, some 2⟩ 10 [50, 10, 51, 10, 49, 10])
      = [50, 10, 49, 10, 51, 10] ∧
    pollC ⟨0, 0, some 2⟩ 2 = true ∧ 2 < 4 := by
  decide

/-- C9 amended: once the cancellation flag is observed at an outer-loop poll,
the pass performs no further comparison, search step or rotation: it
immediately flushes the pending dirty range (and nothing else) and returns
the aborted outcome (nonzero status), with the buffer untouched.  A flag
observed inside a search loop only stops the search; the already-planned
relocation is still performed in full before the abort, and rotations are
never interrupted (they are atomic steps of the model, as in the code, which
never polls mid-rotation). -/
theorem C9_amended :
    ∀ (cfg : Cfg) (st : St) (fuel : Nat), pollC cfg st.polls = true →
      run cfg (fuel + 1) st = .aborted (finalFlush (bumpPoll st)) ∧
      (finalFlush (bumpPoll st)).data = st.data ∧
      (finalFlush (bumpPoll st)).events = st.events ++ pendingFlush st ∧
      (st.ms = none → pendingFlush st = []) ∧
      ∀ b e, st.ms = some (b, e) → pendingFlush st = [Ev.flush b e] := by
  intro cfg st fuel h
  refine ⟨by rw [run, if_pos h], rfl, rfl, ?_, ?_⟩
  · intro hm
    simp [pendingFlush, hm]
  · intro b e hm
    simp [pendingFlush, hm]

theorem C9_amended_witness :
    run ⟨0, 0, some 0⟩ 1 (initSt [97])
      = .aborted (finalFlush (bumpPoll (initSt [97]))) ∧
    (finalFlush (bumpPoll (initSt [97]))).data = (initSt [97]).data ∧
    (finalFlush (bumpPoll (initSt [97]))).events
      = (initSt [97]).events ++ pendingFlush (initSt [97]) ∧
    ((initSt [97]).ms = none → pendingFlush (initSt [97]) = []) ∧
    (∀ b e, (initSt [97]).ms = some (b, e) → pendingFlush (initSt [97])
      = [Ev.flush b e]) :=
  C9_amended ⟨0, 0, some 0⟩ (initSt [97]) 0 (by decide)

/-- C10: the claim says the scratch capacity `min(prev_size, current_size+1)`
always covers the bytes the chosen rotation stores.  The code violates it:
on `"b\naa"` the relocation has `prev_size = current_size = 2`, allocates
`min(2, 3) = 2` bytes, but the move-back path stores the copied line plus a
synthesized delimiter — 3 bytes — into the 2-byte scratch buffer (a one-byte
heap overflow in the C program). -/
theorem C10_scratch_overflow_bug :
    relocEvents (runLsort ⟨0, 0, none⟩ 10 [98, 10, 97, 97])
      = [Ev.reloc 0 4 3 2 3 true] ∧
    min 2 (2 + 1) = 2 ∧ 2 < 3 ∧
    resData (runLsort ⟨0, 0, none⟩ 10 [98, 10, 97, 97]) = [97, 97, 10, 98] := by
  decide


end Lsort
